import Mathlib

/-
  Shallow embedding of the growth-ranking and forecasting core of the
  star-tracking pipeline: scripts/rank_ross_quarter.js, scripts/forecast.js
  and scripts/utils/time.js.

  Modelling conventions:
  * ISO calendar dates (strings "YYYY-MM-DD" in the source) are modelled as
    integers counting days since 1970-01-01 (proleptic Gregorian calendar,
    which is what the JavaScript Date built-ins use).  For equal-length ISO
    date strings, JavaScript string comparison agrees with chronological
    order, so integer comparison is a faithful model of the string
    comparison `r.date <= dateISO` used by the source.
  * JavaScript numbers are modelled as exact rationals (integers where the
    source only ever holds integers).
  * `Math.round x` is `⌊x + 1/2⌋` (round half towards positive infinity),
    as specified by ECMA-262.
-/

/-- ECMA-262 `Math.round`, on the exact rational model of a JS number. -/
def jsRound (x : ℚ) : ℤ := ⌊x + 1/2⌋

/-- One record of a cumulative star series: `{date, value}`
(rank_ross_quarter.js reads `weekly.cumulative`). -/
structure CumEntry where
  date : ℤ
  value : ℤ
deriving DecidableEq

/-- The loop of `cumAt` (rank_ross_quarter.js lines 25-32): walk the series
in order, remember the value of every entry dated `≤ dateISO`, stop at the
first later entry (`else break`). -/
def cumAtGo (dateISO : ℤ) : ℤ → List CumEntry → ℤ
  | last, [] => last
  | last, r :: rest => if r.date ≤ dateISO then cumAtGo dateISO r.value rest else last

/-- `cumAt(cumulative, dateISO)` from rank_ross_quarter.js: value of the
running total as of a date, starting from `last = 0`. -/
def cumAt (cumulative : List CumEntry) (dateISO : ℤ) : ℤ := cumAtGo dateISO 0 cumulative

/-- `addDays(iso, days)` (rank_ross_quarter.js lines 33-37): UTC date plus a
number of days, on the day-number model. -/
def addDays (iso : ℤ) (days : ℤ) : ℤ := iso + days

/-- The window record built by `maxRossWindowForQuarter`
(rank_ross_quarter.js lines 38-54).  The source field `end` is a reserved
word in Lean, hence `end_`. -/
structure RossWindow where
  rel_gain : ℚ
  abs_gain : ℤ
  start : Option ℤ
  end_ : Option ℤ
  start_val : ℤ
  end_val : ℤ
deriving DecidableEq

/-- The zero/empty sentinel `{rel_gain: 0, abs_gain: 0, start: null,
end: null, start_val: 0, end_val: 0}`. -/
def emptyWindow : RossWindow :=
  { rel_gain := 0, abs_gain := 0, start := none, end_ := none, start_val := 0, end_val := 0 }

/-- `rel` of a candidate window end `e` (rank_ross_quarter.js line 50):
`startVal > 0 ? gain / startVal : 0`. -/
def relOf (cum : List CumEntry) (e : ℤ) : ℚ :=
  if 0 < cumAt cum (addDays e (-89)) then
    ((cumAt cum e - cumAt cum (addDays e (-89)) : ℤ) : ℚ) /
      ((cumAt cum (addDays e (-89)) : ℤ) : ℚ)
  else 0

/-- The candidate best record built at window end `e`
(rank_ross_quarter.js line 51). -/
def windowAt (cum : List CumEntry) (e : ℤ) : RossWindow :=
  { rel_gain := relOf cum e
    abs_gain := cumAt cum e - cumAt cum (addDays e (-89))
    start := some (addDays e (-89))
    end_ := some e
    start_val := cumAt cum (addDays e (-89))
    end_val := cumAt cum e }

/-- The scan loop of `maxRossWindowForQuarter` (lines 43-52) over the listed
candidate window ends: skip a window whose `startVal < 1000`
(`continue`), replace `best` only under strict `rel > best.rel_gain`. -/
def scanDays (cum : List CumEntry) : List ℤ → RossWindow → RossWindow
  | [], best => best
  | e :: rest, best =>
    if cumAt cum (addDays e (-89)) < 1000 then scanDays cum rest best
    else if best.rel_gain < relOf cum e then scanDays cum rest (windowAt cum e)
    else scanDays cum rest best

/-- The candidate window ends of the loop header (line 43): every calendar
day from `quarterStart` to `quarterEnd` inclusive, in ascending order. -/
def quarterDays (quarterStart quarterEnd : ℤ) : List ℤ :=
  (List.range (quarterEnd + 1 - quarterStart).toNat).map (fun i : ℕ => quarterStart + (i : ℤ))

/-- `maxRossWindowForQuarter(cumulative, quarterStart, quarterEnd)`
(rank_ross_quarter.js lines 38-54). -/
def maxRossWindowForQuarter (cum : List CumEntry) (quarterStart quarterEnd : ℤ) : RossWindow :=
  if cum = [] then emptyWindow
  else scanDays cum (quarterDays quarterStart quarterEnd) emptyWindow

/-! ### Seasonal forecaster (scripts/forecast.js) -/

/-- The mutable state of the Holt-Winters loop: `level`, `trend` and the
in-place updated seasonal index array `season`. -/
structure HWState where
  level : ℚ
  trend : ℚ
  season : List ℚ
deriving DecidableEq

/-- One iteration of the smoothing loop (forecast.js lines 15-22) at time
step `t` with observation `y`.  `season[sIdx]` is read with default `0`
(the guard in `holtWintersAdditive` keeps every access in bounds). -/
def hwStepAt (seasonLen : ℕ) (alpha beta gamma : ℚ) (y : ℚ) (t : ℕ) (st : HWState) : HWState :=
  let sIdx := t % seasonLen
  let lastLevel := st.level
  let level := alpha * (y - st.season.getD sIdx 0) + (1 - alpha) * (st.level + st.trend)
  let trend := beta * (level - lastLevel) + (1 - beta) * st.trend
  { level := level
    trend := trend
    season := st.season.set sIdx (gamma * (y - level) + (1 - gamma) * st.season.getD sIdx 0) }

/-- The `for (let t=0; t<series.length; t++)` loop of forecast.js,
threading the state through the remaining observations, `t` being the index
of the first one. -/
def hwLoop (seasonLen : ℕ) (alpha beta gamma : ℚ) : List ℚ → ℕ → HWState → HWState
  | [], _, st => st
  | y :: rest, t, st => hwLoop seasonLen alpha beta gamma rest (t + 1) (hwStepAt seasonLen alpha beta gamma y t st)

/-- `holtWintersAdditive(series, seasonLen, alpha, beta, gamma, horizon)`
(forecast.js lines 10-30), returning the `forecast` field: the
`Array(horizon).fill(0)` fallback for short series, otherwise the projected
values `(level + h*trend) + season[(lastIdx + h) % seasonLen]` clamped by
`Math.max(0, Math.round(x))`. -/
def holtWintersAdditive (series : List ℚ) (seasonLen : ℕ) (alpha beta gamma : ℚ)
    (horizon : ℕ) : List ℤ :=
  if series.length < seasonLen + 2 then List.replicate horizon 0
  else
    let level0 := series.getD 0 0
    let trend0 := series.getD 1 0 - series.getD 0 0
    let season0 := (series.take seasonLen).map (fun y => y - level0)
    let st := hwLoop seasonLen alpha beta gamma series 0 ⟨level0, trend0, season0⟩
    let lastIdx := series.length - 1
    (List.range horizon).map (fun i =>
      max 0 (jsRound ((st.level + ((i + 1 : ℕ) : ℚ) * st.trend) + st.season.getD ((lastIdx + (i + 1)) % seasonLen) 0)))

/-- Modelled from the spec: one step of the recurrence of section 4.5, as a
fold step over the index-paired observation sequence — the design note of
section 9 reframes the in-place seasonal array as an explicit state tuple
`(level, trend, season)` threaded through a fold. -/
def hwSpecStep (seasonLen : ℕ) (alpha beta gamma : ℚ) (st : HWState) (p : ℕ × ℚ) : HWState :=
  let i := p.1 % seasonLen
  let y := p.2
  let previousLevel := st.level
  let newLevel := alpha * (y - st.season.getD i 0) + (1 - alpha) * (st.level + st.trend)
  let newTrend := beta * (newLevel - previousLevel) + (1 - beta) * st.trend
  { level := newLevel
    trend := newTrend
    season := st.season.set i (gamma * (y - newLevel) + (1 - gamma) * st.season.getD i 0) }

/-- Modelled from the spec (section 4.5): initialization
`level₀ = series[0]`, `trend₀ = series[1] − series[0]`,
`season[i] = series[i] − level₀` for offsets `0..seasonLength-1`. -/
def hwSpecInit (seasonLen : ℕ) (series : List ℚ) : HWState :=
  { level := series.getD 0 0
    trend := series.getD 1 0 - series.getD 0 0
    season := (List.range seasonLen).map (fun i => series.getD i 0 - series.getD 0 0) }

/-- Modelled from the spec (section 4.5): run the recurrence once per
observation in chronological order over the entire series, then for each
forecast step `k = 1..h`, with `j = (series.length − 1 + k) mod
seasonLength`, emit `max(0, round(level + k·trend + season[j]))`. -/
def holtWintersSpec (series : List ℚ) (seasonLen : ℕ) (alpha beta gamma : ℚ)
    (horizon : ℕ) : List ℤ :=
  let st := series.enum.foldl (hwSpecStep seasonLen alpha beta gamma) (hwSpecInit seasonLen series)
  (List.range horizon).map (fun i =>
    max 0 (jsRound (st.level + ((i + 1 : ℕ) : ℚ) * st.trend + st.season.getD ((series.length - 1 + (i + 1)) % seasonLen) 0)))

/-! ### Time-window utilities (scripts/utils/time.js)

JavaScript `Date` built-ins are modelled on day numbers with the standard
civil-from-days / days-from-civil conversions for the proleptic Gregorian
calendar (the arithmetic specified by ECMA-262 for UTC dates). -/

/-- Day number (days since 1970-01-01) of a civil date `(y, m, d)`;
models `Date.UTC(y, m-1, d) / 86400000`, including the day-overflow
normalization used by `weeksToBounds`. -/
def civilToDay (y m d : ℤ) : ℤ :=
  let y2 := if m ≤ 2 then y - 1 else y
  let era := y2 / 400
  let yoe := y2 - era * 400
  let mp := (m + 9) % 12
  let doy := (153 * mp + 2) / 5 + d - 1
  let doe := yoe * 365 + yoe / 4 - yoe / 100 + doy
  era * 146097 + doe - 719468

/-- The calendar year containing a day number; models
`Date.prototype.getUTCFullYear`. -/
def civilYearOfDay (z : ℤ) : ℤ :=
  let z2 := z + 719468
  let era := z2 / 146097
  let doe := z2 % 146097
  let yoe := (doe - doe / 1460 + doe / 36524 - doe / 146096) / 365
  let y := yoe + era * 400
  let doy := doe - (365 * yoe + yoe / 4 - yoe / 100)
  let mp := (5 * doy + 2) / 153
  let m := mp + (if mp < 10 then 3 else -9)
  if m ≤ 2 then y + 1 else y

/-- `(d.getUTCDay() + 6) % 7`: day of week with Monday = 0.  Day 0
(1970-01-01) is a Thursday, so `getUTCDay z = (z + 4) % 7` and this is
`(z + 3) % 7`. -/
def dowMonday (z : ℤ) : ℤ := (z + 3) % 7

/-- `isoWeekKey(isoDate)` (time.js lines 2-11) on the day-number model; the
`"YEAR-Wnn"` key string is modelled as the pair (year, week), which the
zero-padded two-digit format encodes losslessly.  `Math.round((thurs -
week1) / 604800000)` divides two midnight-UTC timestamps, i.e. rounds the
day difference divided by 7. -/
def isoWeekKey (d : ℤ) : ℤ × ℤ :=
  let day := dowMonday d
  let thurs := d - day + 3
  let year := civilYearOfDay thurs
  let week1 := civilToDay year 1 4
  let week := 1 + jsRound (((thurs - week1 : ℤ) : ℚ) / 7)
  (year, week)

/-- `weeksToBounds(weekKey)` (time.js lines 13-25): `simple` is
`Date.UTC(y, 0, 1 + (w-1)*7)` — January 1 of year `y` plus `(w-1)*7` days
after normalization — then the window is the preceding Monday and the
Sunday six days later. -/
def weeksToBounds (y w : ℤ) : ℤ × ℤ :=
  let simple := civilToDay y 1 1 + (w - 1) * 7
  let dow := dowMonday simple
  let monday := simple - dow
  (monday, monday + 6)

/-! ### Quarterly ranker (scripts/rank_ross_quarter.js, rankRossQuarter) -/

/-- Repo meta attached by `loadMeta` (stars_now, forks, open_issues,
subscribers); opaque passthrough data for the ranker. -/
structure MetaInfo where
  stars_now : Option ℤ
  forks : Option ℤ
  open_issues : Option ℤ
  subscribers : Option ℤ
deriving DecidableEq

/-- Owner context attached by `loadOwner`; opaque passthrough data. -/
structure OwnerInfo where
  owner : Option String
  owner_type : Option String
  location : Option String
  website : Option String
deriving DecidableEq

/-- One repository as the ranker reads it: the weekly payload's `repo` and
`cumulative` fields plus the optional meta/owner files. -/
structure RepoInput where
  repo : String
  cumulative : List CumEntry
  meta : Option MetaInfo
  ownerInfo : Option OwnerInfo
deriving DecidableEq

/-- An output row of `rankRossQuarter` (lines 94-111 plus the `rank` added
on line 115; `rank = 0` marks a row not yet ranked). -/
structure RossRow where
  repo : String
  quarter : String
  stars_now : Option ℤ
  forks : Option ℤ
  open_issues : Option ℤ
  subscribers : Option ℤ
  best_window_start : Option ℤ
  best_window_end : Option ℤ
  window_start_stars : ℤ
  window_end_stars : ℤ
  abs_gain_90d : ℤ
  rel_gain_90d : ℚ
  owner : Option OwnerInfo
  rank : ℕ
deriving DecidableEq

/-- `Number(x.toFixed(6))` for the nonnegative relative gains stored in the
rows: round to 6 decimal digits, half away from zero. -/
def jsToFixed6 (x : ℚ) : ℚ := ((jsRound (x * 1000000) : ℤ) : ℚ) / 1000000

/-- The per-repository body of the ranker loop (lines 91-111): run the
scanner and either discard the repository (`!best.start || best.rel_gain
<= 0`, line 92) or build its row. -/
def rowOf (label : String) (qS qE : ℤ) (r : RepoInput) : Option RossRow :=
  let best := maxRossWindowForQuarter r.cumulative qS qE
  if best.start = none ∨ best.rel_gain ≤ 0 then none
  else some
    { repo := r.repo
      quarter := label
      stars_now := r.meta.bind MetaInfo.stars_now
      forks := r.meta.bind MetaInfo.forks
      open_issues := r.meta.bind MetaInfo.open_issues
      subscribers := r.meta.bind MetaInfo.subscribers
      best_window_start := best.start
      best_window_end := best.end_
      window_start_stars := best.start_val
      window_end_stars := best.end_val
      abs_gain_90d := best.abs_gain
      rel_gain_90d := jsToFixed6 best.rel_gain
      owner := r.ownerInfo
      rank := 0 }

/-- The retained rows of the quarter, in input enumeration order. -/
def rossRows (label : String) (qS qE : ℤ) (repos : List RepoInput) : List RossRow :=
  repos.filterMap (rowOf label qS qE)

/-- Insert a row into an already descending list, before the first row
whose `rel_gain_90d` is not larger.  Together with `sortDesc` this is the
stable descending sort that ECMA-262 (2019+) specifies for
`rows.sort((a, b) => b.rel_gain_90d - a.rel_gain_90d)` (line 114). -/
def insertDesc (r : RossRow) : List RossRow → List RossRow
  | [] => [r]
  | y :: ys => if r.rel_gain_90d < y.rel_gain_90d then y :: insertDesc r ys else r :: y :: ys

/-- Stable descending sort by `rel_gain_90d` (model of line 114). -/
def sortDesc : List RossRow → List RossRow
  | [] => []
  | x :: xs => insertDesc x (sortDesc xs)

/-- `rows.slice(0,100).map((r, i) => ({...r, rank: i+1}))` (line 115):
attach ranks `n, n+1, ...` down the list. -/
def addRanksFrom : ℕ → List RossRow → List RossRow
  | _, [] => []
  | n, x :: xs => { x with rank := n } :: addRanksFrom (n + 1) xs

/-- `rankRossQuarter` (lines 80-120), its pure core: the quarter bounds and
the `"YEAR-Qq"` label are computed by the caller from `(year, q)` via
`quarterBounds` and a template literal; file enumeration, JSON parsing and
persistence are the I/O shell around this computation. -/
def rankRossQuarter (label : String) (qS qE : ℤ) (repos : List RepoInput) : List RossRow :=
  addRanksFrom 1 ((sortDesc (rossRows label qS qE repos)).take 100)

/-! ### Spec-side description of the cumulative accessor (section 4.2) -/

/-- Modelled from the spec (sections 4.2 and 8): the value of the last
entry whose date is `≤ date`, or `0` if the series is empty or every entry
postdates the target. -/
def valueSpecLast (S : List CumEntry) (D : ℤ) : ℤ :=
  (((S.filter (fun r => r.date ≤ D)).getLast?).map CumEntry.value).getD 0

/-! ### Concrete inputs used to instantiate the theorems below -/

/-- A small cumulative series: 1000 stars well before the quarter, 1500
from day 50 on. -/
def cumW : List CumEntry := [⟨-100, 1000⟩, ⟨50, 1500⟩]

/-- A second series reaching 2000 stars on day 50. -/
def cumW2 : List CumEntry := [⟨-100, 1000⟩, ⟨50, 2000⟩]

/-- Two eligible repositories with distinct relative gains. -/
def reposW : List RepoInput :=
  [{ repo := "a", cumulative := cumW, meta := none, ownerInfo := none },
   { repo := "b", cumulative := cumW2, meta := none, ownerInfo := none }]

/-- The retained (pre-rank) row of repository "a" for quarter days 50..50. -/
def rowWa : RossRow :=
  { repo := "a", quarter := "2025-Q1", stars_now := none, forks := none,
    open_issues := none, subscribers := none, best_window_start := some (-39),
    best_window_end := some 50, window_start_stars := 1000, window_end_stars := 1500,
    abs_gain_90d := 500, rel_gain_90d := 1/2, owner := none, rank := 0 }

/-- The retained (pre-rank) row of repository "b" for quarter days 50..50. -/
def rowWb : RossRow :=
  { repo := "b", quarter := "2025-Q1", stars_now := none, forks := none,
    open_issues := none, subscribers := none, best_window_start := some (-39),
    best_window_end := some 50, window_start_stars := 1000, window_end_stars := 2000,
    abs_gain_90d := 1000, rel_gain_90d := 1, owner := none, rank := 0 }

/-! ### Scanner lemmas -/

/-- A window record the scan loop can hold: the sentinel, or a strictly
positive eligible window from the candidate set `S`. -/
def GoodBest (cum : List CumEntry) (S : List ℤ) (b : RossWindow) : Prop :=
  b = emptyWindow ∨
    ∃ e ∈ S, b = windowAt cum e ∧ 1000 ≤ cumAt cum (addDays e (-89)) ∧ 0 < relOf cum e

lemma GoodBest.rel_nonneg {cum S b} (h : GoodBest cum S b) : 0 ≤ b.rel_gain := by
  rcases h with h | ⟨e, _, rfl, _, hpos⟩
  · simp [h, emptyWindow]
  · exact le_of_lt hpos

lemma scanDays_good {cum : List CumEntry} {S : List ℤ} :
    ∀ {days : List ℤ}, (∀ x ∈ days, x ∈ S) → ∀ {b : RossWindow},
      GoodBest cum S b → GoodBest cum S (scanDays cum days b) := by
  intro days
  induction days with
  | nil => intro _ b hb; simpa [scanDays] using hb
  | cons e rest ih =>
    intro hsub b hb
    have hrest : ∀ x ∈ rest, x ∈ S := fun x hx => hsub x (List.mem_cons_of_mem _ hx)
    simp only [scanDays]
    split_ifs with h1 h2
    · exact ih hrest hb
    · refine ih hrest (Or.inr ⟨e, hsub e (List.mem_cons_self e rest), rfl, by omega, ?_⟩)
      calc (0 : ℚ) ≤ b.rel_gain := hb.rel_nonneg
        _ < relOf cum e := h2
    · exact ih hrest hb

lemma scanDays_rel_mono {cum : List CumEntry} :
    ∀ (days : List ℤ) (b : RossWindow), b.rel_gain ≤ (scanDays cum days b).rel_gain := by
  intro days
  induction days with
  | nil => intro b; simp [scanDays]
  | cons e rest ih =>
    intro b
    simp only [scanDays]
    split_ifs with h1 h2
    · exact ih b
    · calc b.rel_gain ≤ relOf cum e := le_of_lt h2
        _ = (windowAt cum e).rel_gain := rfl
        _ ≤ _ := ih _
    · exact ih b

lemma scanDays_ge (cum : List CumEntry) :
    ∀ (days : List ℤ) (b : RossWindow) (e : ℤ), e ∈ days →
      1000 ≤ cumAt cum (addDays e (-89)) → relOf cum e ≤ (scanDays cum days b).rel_gain := by
  intro days
  induction days with
  | nil => intro _ e he; exact absurd he (List.not_mem_nil e)
  | cons d rest ih =>
    intro b e he helig
    rcases List.mem_cons.mp he with rfl | hmem
    · simp only [scanDays]
      split_ifs with h1 h2
      · omega
      · calc relOf cum e = (windowAt cum e).rel_gain := rfl
          _ ≤ _ := scanDays_rel_mono rest _
      · calc relOf cum e ≤ b.rel_gain := not_lt.mp h2
          _ ≤ _ := scanDays_rel_mono rest b
    · simp only [scanDays]
      split_ifs with h1 h2
      · exact ih b e hmem helig
      · exact ih _ e hmem helig
      · exact ih b e hmem helig

lemma scanDays_stay {cum : List CumEntry} :
    ∀ (days : List ℤ) (b : RossWindow),
      (∀ e ∈ days, 1000 ≤ cumAt cum (addDays e (-89)) → relOf cum e ≤ b.rel_gain) →
      scanDays cum days b = b := by
  intro days
  induction days with
  | nil => intro b _; simp [scanDays]
  | cons e rest ih =>
    intro b hno
    simp only [scanDays]
    split_ifs with h1 h2
    · exact ih b (fun x hx => hno x (List.mem_cons_of_mem _ hx))
    · exact absurd h2 (not_lt.mpr (hno e (List.mem_cons_self e rest) (by omega)))
    · exact ih b (fun x hx => hno x (List.mem_cons_of_mem _ hx))

/-- The first maximum encountered wins: if the scan ends at window end `e`,
then every strictly earlier candidate day that was eligible scored strictly
below `relOf cum e` (the scan replaces `best` only under strict `>`). -/
lemma scanDays_first {cum : List CumEntry} :
    ∀ (days : List ℤ), days.Pairwise (· < ·) → ∀ (b : RossWindow) (e : ℤ),
      (scanDays cum days b).end_ = some e →
      b.end_ = some e ∨
        (e ∈ days ∧ 1000 ≤ cumAt cum (addDays e (-89)) ∧ b.rel_gain < relOf cum e ∧
          ∀ x ∈ days, x < e → 1000 ≤ cumAt cum (addDays x (-89)) → relOf cum x < relOf cum e) := by
  intro days
  induction days with
  | nil => intro _ b e h; left; simpa [scanDays] using h
  | cons d rest ih =>
    intro hsort b e hres
    have hlt : ∀ x ∈ rest, d < x := (List.pairwise_cons.mp hsort).1
    have hsort' : rest.Pairwise (· < ·) := (List.pairwise_cons.mp hsort).2
    simp only [scanDays] at hres
    split_ifs at hres with h1 h2
    · rcases ih hsort' b e hres with h | ⟨hmem, helig, hgt, hall⟩
      · exact Or.inl h
      · refine Or.inr ⟨List.mem_cons_of_mem _ hmem, helig, hgt, ?_⟩
        intro x hx hxe hxelig
        rcases List.mem_cons.mp hx with rfl | hx'
        · omega
        · exact hall x hx' hxe hxelig
    · rcases ih hsort' (windowAt cum d) e hres with h | ⟨hmem, helig, hgt, hall⟩
      · have hde : d = e := by simpa [windowAt] using h
        subst hde
        refine Or.inr ⟨List.mem_cons_self d rest, by omega, h2, ?_⟩
        intro x hx hxd _
        rcases List.mem_cons.mp hx with rfl | hx'
        · omega
        · exact absurd hxd (not_lt.mpr (le_of_lt (hlt x hx')))
      · have hdrel : relOf cum d < relOf cum e := hgt
        refine Or.inr ⟨List.mem_cons_of_mem _ hmem, helig, lt_trans h2 hdrel, ?_⟩
        intro x hx hxe hxelig
        rcases List.mem_cons.mp hx with rfl | hx'
        · exact hdrel
        · exact hall x hx' hxe hxelig
    · rcases ih hsort' b e hres with h | ⟨hmem, helig, hgt, hall⟩
      · exact Or.inl h
      · refine Or.inr ⟨List.mem_cons_of_mem _ hmem, helig, hgt, ?_⟩
        intro x hx hxe hxelig
        rcases List.mem_cons.mp hx with rfl | hx'
        · calc relOf cum x ≤ b.rel_gain := not_lt.mp h2
            _ < relOf cum e := hgt
        · exact hall x hx' hxe hxelig

lemma mem_quarterDays {qS qE e : ℤ} (h : e ∈ quarterDays qS qE) : qS ≤ e ∧ e ≤ qE := by
  simp only [quarterDays, List.mem_map] at h
  obtain ⟨i, hi, rfl⟩ := h
  rw [List.mem_range] at hi
  omega

lemma quarterDays_pairwise (qS qE : ℤ) : (quarterDays qS qE).Pairwise (· < ·) := by
  unfold quarterDays
  refine List.Pairwise.map _ (fun a b hab => ?_) (List.pairwise_lt_range _)
  omega

lemma cumAt_nil (d : ℤ) : cumAt [] d = 0 := rfl

/-! ### Concrete evaluations of the scanner -/

lemma relOf_cumW_50 : relOf cumW 50 = 1/2 := by
  norm_num [relOf, cumW, cumAt, cumAtGo, addDays]

lemma relOf_cumW_51 : relOf cumW 51 = 1/2 := by
  norm_num [relOf, cumW, cumAt, cumAtGo, addDays]

lemma cumW_eval : maxRossWindowForQuarter cumW 50 52 =
    { rel_gain := 1/2, abs_gain := 500, start := some (-39), end_ := some 50,
      start_val := 1000, end_val := 1500 } := by
  norm_num [maxRossWindowForQuarter, quarterDays, scanDays, emptyWindow, windowAt, relOf,
    cumW, cumAt, cumAtGo, addDays, List.range_succ]
  simp

/-! ### Scanner claims -/

/-- Claim C1: a window whose start value (the cumulative value 89 days
before the candidate end) is below 1000 is never selected as best — any
selected best has start value at least 1000 — while every candidate end in
the quarter whose start value is at least 1000 and whose relative gain is
positive competes: some window is then selected, scoring at least that
window's relative gain. -/
theorem ross_eligibility_floor (cum : List CumEntry) (qS qE : ℤ) :
    (∀ s, (maxRossWindowForQuarter cum qS qE).start = some s → 1000 ≤ cumAt cum s) ∧
    (∀ e ∈ quarterDays qS qE, 1000 ≤ cumAt cum (addDays e (-89)) → 0 < relOf cum e →
      (maxRossWindowForQuarter cum qS qE).start ≠ none ∧
        relOf cum e ≤ (maxRossWindowForQuarter cum qS qE).rel_gain) := by
  by_cases hc : cum = []
  · subst hc
    constructor
    · intro s hs
      simp [maxRossWindowForQuarter, emptyWindow] at hs
    · intro e _ helig _
      rw [cumAt_nil] at helig
      omega
  · have hmax : maxRossWindowForQuarter cum qS qE =
        scanDays cum (quarterDays qS qE) emptyWindow := by
      simp [maxRossWindowForQuarter, hc]
    have hgood : GoodBest cum (quarterDays qS qE)
        (scanDays cum (quarterDays qS qE) emptyWindow) :=
      scanDays_good (fun x hx => hx) (Or.inl rfl)
    constructor
    · intro s hs
      rw [hmax] at hs
      rcases hgood with hg | ⟨e, _, hg, helig, _⟩
      · rw [hg] at hs
        simp [emptyWindow] at hs
      · rw [hg] at hs
        simp only [windowAt, Option.some.injEq] at hs
        rw [← hs]
        exact helig
    · intro e hmem helig hpos
      have hge : relOf cum e ≤ (scanDays cum (quarterDays qS qE) emptyWindow).rel_gain :=
        scanDays_ge cum _ _ e hmem helig
      rw [hmax]
      refine ⟨?_, hge⟩
      rcases hgood with hg | ⟨x, _, hg, _, _⟩
      · rw [hg] at hge
        simp only [emptyWindow] at hge
        exact absurd (lt_of_lt_of_le hpos hge) (by norm_num)
      · rw [hg]
        simp [windowAt]

/-- Claim C1 witness: on `cumW` with quarter days 50..52, the selected
window's start value is at least 1000, and the eligible positive window
ending on day 50 forces a non-sentinel result scoring at least 1/2. -/
theorem ross_eligibility_floor_witness :
    1000 ≤ cumAt cumW (-39) ∧
    ((maxRossWindowForQuarter cumW 50 52).start ≠ none ∧
      relOf cumW 50 ≤ (maxRossWindowForQuarter cumW 50 52).rel_gain) := by
  have h := ross_eligibility_floor cumW 50 52
  exact ⟨h.1 (-39) (by rw [cumW_eval]), h.2 50 (by decide) (by decide)
    (by rw [relOf_cumW_50]; norm_num)⟩

/-- Claim C9: the scanner returns the zero/empty sentinel (`start = none`,
`rel_gain = 0`) exactly when the cumulative series is empty or no window
end in the quarter is both eligible (start value at least 1000) and of
positive relative gain. -/
theorem ross_sentinel_iff (cum : List CumEntry) (qS qE : ℤ) :
    ((maxRossWindowForQuarter cum qS qE).start = none ∧
      (maxRossWindowForQuarter cum qS qE).rel_gain = 0) ↔
      (cum = [] ∨ ∀ e ∈ quarterDays qS qE,
        1000 ≤ cumAt cum (addDays e (-89)) → relOf cum e ≤ 0) := by
  by_cases hc : cum = []
  · subst hc
    simp [maxRossWindowForQuarter, emptyWindow]
  · have hmax : maxRossWindowForQuarter cum qS qE =
        scanDays cum (quarterDays qS qE) emptyWindow := by
      simp [maxRossWindowForQuarter, hc]
    constructor
    · rintro ⟨hstart, hrel⟩
      right
      intro e hmem helig
      by_contra hpos
      push_neg at hpos
      have hge := scanDays_ge cum (quarterDays qS qE) emptyWindow e hmem helig
      rw [← hmax] at hge
      rw [hrel] at hge
      exact absurd (lt_of_lt_of_le hpos hge) (by norm_num)
    · rintro (hc' | hall)
      · exact absurd hc' hc
      · have hstay : scanDays cum (quarterDays qS qE) emptyWindow = emptyWindow := by
          refine scanDays_stay _ _ (fun e he helig => ?_)
          have := hall e he helig
          simpa [emptyWindow] using this
        rw [hmax, hstay]
        exact ⟨rfl, rfl⟩

/-- Claim C9 witness: the empty series yields the sentinel. -/
theorem ross_sentinel_iff_witness :
    (maxRossWindowForQuarter [] 50 52).start = none ∧
      (maxRossWindowForQuarter [] 50 52).rel_gain = 0 :=
  (ross_sentinel_iff [] 50 52).mpr (Or.inl rfl)

/-- Claim C10: any non-sentinel scanner result describes a real window of
the quarter: its start is exactly 89 days before its end, the end lies
within the quarter bounds, the start value is at least 1000 and equals the
cumulative value at the start, the end value equals the cumulative value at
the end, `abs_gain = end_val - start_val`,
`rel_gain = abs_gain / start_val`, and `rel_gain > 0`. -/
theorem ross_window_shape (cum : List CumEntry) (qS qE s : ℤ)
    (h : (maxRossWindowForQuarter cum qS qE).start = some s) :
    ∃ e, (maxRossWindowForQuarter cum qS qE).end_ = some e ∧ s = e - 89 ∧
      qS ≤ e ∧ e ≤ qE ∧
      (maxRossWindowForQuarter cum qS qE).start_val = cumAt cum s ∧
      1000 ≤ (maxRossWindowForQuarter cum qS qE).start_val ∧
      (maxRossWindowForQuarter cum qS qE).end_val = cumAt cum e ∧
      (maxRossWindowForQuarter cum qS qE).abs_gain =
        (maxRossWindowForQuarter cum qS qE).end_val -
          (maxRossWindowForQuarter cum qS qE).start_val ∧
      (maxRossWindowForQuarter cum qS qE).rel_gain =
        ((maxRossWindowForQuarter cum qS qE).abs_gain : ℚ) /
          ((maxRossWindowForQuarter cum qS qE).start_val : ℚ) ∧
      0 < (maxRossWindowForQuarter cum qS qE).rel_gain := by
  by_cases hc : cum = []
  · subst hc
    simp [maxRossWindowForQuarter, emptyWindow] at h
  · have hmax : maxRossWindowForQuarter cum qS qE =
        scanDays cum (quarterDays qS qE) emptyWindow := by
      simp [maxRossWindowForQuarter, hc]
    have hgood : GoodBest cum (quarterDays qS qE)
        (scanDays cum (quarterDays qS qE) emptyWindow) :=
      scanDays_good (fun x hx => hx) (Or.inl rfl)
    rw [← hmax] at hgood
    rcases hgood with hg | ⟨e, hmem, hg, helig, hpos⟩
    · rw [hg] at h
      simp [emptyWindow] at h
    · have hbounds := mem_quarterDays hmem
      refine ⟨e, ?_⟩
      rw [hg] at h ⊢
      simp only [windowAt, Option.some.injEq] at h
      rw [addDays] at h
      refine ⟨rfl, by omega, hbounds.1, hbounds.2, ?_, ?_, rfl, rfl, ?_, ?_⟩
      · simp only [windowAt, addDays]
        rw [← h]
      · simpa [windowAt] using helig
      · simp only [windowAt, relOf]
        rw [if_pos (by omega)]
      · simpa [windowAt] using hpos

/-- Claim C10 witness: at `cumW` with quarter 50..52 the selected window
starting at day -39 has the full shape. -/
theorem ross_window_shape_witness :
    ∃ e, (maxRossWindowForQuarter cumW 50 52).end_ = some e ∧ (-39 : ℤ) = e - 89 ∧
      50 ≤ e ∧ e ≤ 52 ∧
      (maxRossWindowForQuarter cumW 50 52).start_val = cumAt cumW (-39) ∧
      1000 ≤ (maxRossWindowForQuarter cumW 50 52).start_val ∧
      (maxRossWindowForQuarter cumW 50 52).end_val = cumAt cumW e ∧
      (maxRossWindowForQuarter cumW 50 52).abs_gain =
        (maxRossWindowForQuarter cumW 50 52).end_val -
          (maxRossWindowForQuarter cumW 50 52).start_val ∧
      (maxRossWindowForQuarter cumW 50 52).rel_gain =
        ((maxRossWindowForQuarter cumW 50 52).abs_gain : ℚ) /
          ((maxRossWindowForQuarter cumW 50 52).start_val : ℚ) ∧
      0 < (maxRossWindowForQuarter cumW 50 52).rel_gain :=
  ross_window_shape cumW 50 52 (-39) (by rw [cumW_eval])

/-! ### Forecaster claims -/

lemma hwLoop_eq_foldl (seasonLen : ℕ) (alpha beta gamma : ℚ) :
    ∀ (l : List ℚ) (t : ℕ) (st : HWState),
      hwLoop seasonLen alpha beta gamma l t st =
        (List.enumFrom t l).foldl (hwSpecStep seasonLen alpha beta gamma) st := by
  intro l
  induction l with
  | nil => intro t st; rfl
  | cons y rest ih =>
    intro t st
    rw [show hwLoop seasonLen alpha beta gamma (y :: rest) t st =
        hwLoop seasonLen alpha beta gamma rest (t + 1)
          (hwStepAt seasonLen alpha beta gamma y t st) from rfl]
    rw [ih]
    rfl

lemma season_init_eq (seasonLen : ℕ) (series : List ℚ) (h : seasonLen ≤ series.length) :
    (series.take seasonLen).map (fun y => y - series.getD 0 0) =
      (List.range seasonLen).map (fun i => series.getD i 0 - series.getD 0 0) := by
  apply List.ext_getElem
  · simp
    omega
  · intro i h1 h2
    have hb : i < series.length := by
      simp only [List.length_map, List.length_take] at h1
      omega
    simp only [List.getElem_map, List.getElem_take, List.getElem_range,
      List.getD_eq_getElem?_getD, List.getElem?_eq_getElem hb, Option.getD_some]

/-- Claim C2: for a series long enough to initialize (length at least
`seasonLen + 2`, with a positive season length), `holtWintersAdditive` is
exactly the spec's pipeline: the stated initialization, the stated
recurrence folded once per observation in chronological order over the
entire series, and the projection
`max(0, round(level + k·trend + season[(length-1+k) mod seasonLen]))` for
`k = 1..horizon`. -/
theorem holt_winters_matches_spec (series : List ℚ) (seasonLen : ℕ) (alpha beta gamma : ℚ)
    (horizon : ℕ) (hlen : seasonLen + 2 ≤ series.length) (_hpos : 0 < seasonLen) :
    holtWintersAdditive series seasonLen alpha beta gamma horizon =
      holtWintersSpec series seasonLen alpha beta gamma horizon := by
  have hinit : (⟨series.getD 0 0, series.getD 1 0 - series.getD 0 0,
      (series.take seasonLen).map (fun y => y - series.getD 0 0)⟩ : HWState) =
      hwSpecInit seasonLen series := by
    unfold hwSpecInit
    congr 1
    exact season_init_eq seasonLen series (by omega)
  simp only [holtWintersAdditive, holtWintersSpec]
  rw [if_neg (by omega)]
  rw [hwLoop_eq_foldl]
  rw [hinit]
  rfl

/-- Claim C2 witness: a length-3 series with season length 1. -/
theorem holt_winters_matches_spec_witness :
    holtWintersAdditive [1, 2, 3] 1 (3/10) (1/10) (3/10) 2 =
      holtWintersSpec [1, 2, 3] 1 (3/10) (1/10) (3/10) 2 :=
  holt_winters_matches_spec [1, 2, 3] 1 (3/10) (1/10) (3/10) 2 (by simp) (by omega)

/-- Claim C8: a series shorter than `seasonLen + 2` (the empty series
included) yields a forecast of exactly `horizon` zeros, with no failure —
`holtWintersAdditive` is total and returns `Array(horizon).fill(0)`. -/
theorem holt_winters_short_series (series : List ℚ) (seasonLen : ℕ) (alpha beta gamma : ℚ)
    (horizon : ℕ) (h : series.length < seasonLen + 2) :
    holtWintersAdditive series seasonLen alpha beta gamma horizon = List.replicate horizon 0 ∧
      (holtWintersAdditive series seasonLen alpha beta gamma horizon).length = horizon ∧
      ∀ x ∈ holtWintersAdditive series seasonLen alpha beta gamma horizon, x = 0 := by
  have he : holtWintersAdditive series seasonLen alpha beta gamma horizon =
      List.replicate horizon 0 := by
    unfold holtWintersAdditive
    rw [if_pos h]
  refine ⟨he, by rw [he]; simp, ?_⟩
  rw [he]
  intro x hx
  exact List.eq_of_mem_replicate hx

/-- Claim C8 witness: the empty series with the production parameters
(season length 52, horizon 12). -/
theorem holt_winters_short_series_witness :
    holtWintersAdditive [] 52 (3/10) (1/10) (3/10) 12 = List.replicate 12 0 ∧
      (holtWintersAdditive [] 52 (3/10) (1/10) (3/10) 12).length = 12 ∧
      ∀ x ∈ holtWintersAdditive [] 52 (3/10) (1/10) (3/10) 12, x = 0 :=
  holt_winters_short_series [] 52 (3/10) (1/10) (3/10) 12 (by simp)

/-! ### Cumulative accessor claim -/

lemma cumAtGo_spec (D : ℤ) :
    ∀ (S : List CumEntry) (acc : ℤ), S.Pairwise (fun a b => a.date ≤ b.date) →
      cumAtGo D acc S =
        (((S.filter (fun r => r.date ≤ D)).getLast?).map CumEntry.value).getD acc := by
  intro S
  induction S with
  | nil => intro acc _; simp [cumAtGo]
  | cons r rest ih =>
    intro acc hs
    have hr : ∀ x ∈ rest, r.date ≤ x.date := (List.pairwise_cons.mp hs).1
    have hrest : rest.Pairwise (fun a b => a.date ≤ b.date) := (List.pairwise_cons.mp hs).2
    by_cases hd : r.date ≤ D
    · rw [show cumAtGo D acc (r :: rest) = cumAtGo D r.value rest by simp [cumAtGo, hd]]
      rw [ih r.value hrest]
      rw [show (r :: rest).filter (fun x => x.date ≤ D) =
          r :: rest.filter (fun x => x.date ≤ D) by simp [List.filter_cons, hd]]
      cases hfe : rest.filter (fun x => x.date ≤ D) with
      | nil => simp [hfe]
      | cons y ys =>
        rw [List.getLast?_cons_cons]
        cases hyl : (y :: ys).getLast? with
        | none => simp at hyl
        | some v => simp
    · rw [show cumAtGo D acc (r :: rest) = acc by simp [cumAtGo, hd]]
      have hnil : (r :: rest).filter (fun x => x.date ≤ D) = [] := by
        rw [List.filter_eq_nil_iff]
        intro x hx
        rcases List.mem_cons.mp hx with rfl | hx'
        · simpa using hd
        · have := hr x hx'
          simp only [decide_eq_true_eq]
          omega
      rw [hnil]
      rfl

/-- Claim C4: on a cumulative series (sorted ascending by date), `cumAt`
returns the value of the last entry dated at or before the query date, and
0 when the series is empty or every entry postdates the query. -/
theorem cumAt_last_entry (S : List CumEntry) (D : ℤ)
    (hs : S.Pairwise (fun a b => a.date ≤ b.date)) :
    cumAt S D = valueSpecLast S D ∧ (S = [] → cumAt S D = 0) ∧
      ((∀ r ∈ S, D < r.date) → cumAt S D = 0) := by
  have h1 : cumAt S D = valueSpecLast S D := cumAtGo_spec D S 0 hs
  refine ⟨h1, fun he => by subst he; rfl, fun hall => ?_⟩
  rw [h1]
  unfold valueSpecLast
  have hnil : S.filter (fun r => r.date ≤ D) = [] := by
    rw [List.filter_eq_nil_iff]
    intro x hx
    have := hall x hx
    simp only [decide_eq_true_eq]
    omega
  rw [hnil]
  rfl

/-- Claim C4 witness: a one-entry series whose entry postdates the query
date yields 0. -/
theorem cumAt_last_entry_witness :
    cumAt [⟨20, 5⟩] 10 = valueSpecLast [⟨20, 5⟩] 10 ∧
      (([⟨20, 5⟩] : List CumEntry) = [] → cumAt [⟨20, 5⟩] 10 = 0) ∧
      cumAt [⟨20, 5⟩] 10 = 0 := by
  have h := cumAt_last_entry [⟨20, 5⟩] 10 (by simp)
  exact ⟨h.1, h.2.1, h.2.2 (by decide)⟩

/-- Claim C6: if the scanner reports the window ending at `e`, then `e` is
a quarter day, the window is eligible, the reported `rel_gain` is exactly
`relOf cum e`, no eligible quarter day scores higher, and every eligible
quarter day strictly earlier than `e` scores strictly lower — the first
maximum encountered in the ascending scan wins, because `best` is replaced
only under strict `>`. -/
theorem ross_first_max_wins (cum : List CumEntry) (qS qE e : ℤ)
    (h : (maxRossWindowForQuarter cum qS qE).end_ = some e) :
    e ∈ quarterDays qS qE ∧ 1000 ≤ cumAt cum (addDays e (-89)) ∧
      (maxRossWindowForQuarter cum qS qE).rel_gain = relOf cum e ∧
      (∀ x ∈ quarterDays qS qE, 1000 ≤ cumAt cum (addDays x (-89)) →
        relOf cum x ≤ relOf cum e) ∧
      (∀ x ∈ quarterDays qS qE, x < e → 1000 ≤ cumAt cum (addDays x (-89)) →
        relOf cum x < relOf cum e) := by
  by_cases hc : cum = []
  · subst hc
    simp [maxRossWindowForQuarter, emptyWindow] at h
  · have hmax : maxRossWindowForQuarter cum qS qE =
        scanDays cum (quarterDays qS qE) emptyWindow := by
      simp [maxRossWindowForQuarter, hc]
    have hgood : GoodBest cum (quarterDays qS qE)
        (scanDays cum (quarterDays qS qE) emptyWindow) :=
      scanDays_good (fun x hx => hx) (Or.inl rfl)
    rw [← hmax] at hgood
    have hrel : (maxRossWindowForQuarter cum qS qE).rel_gain = relOf cum e := by
      rcases hgood with hg | ⟨x, _, hg, _, _⟩
      · rw [hg] at h
        simp [emptyWindow] at h
      · rw [hg] at h
        simp only [windowAt, Option.some.injEq] at h
        rw [hg, h]
        rfl
    have hfirst := scanDays_first (quarterDays qS qE) (quarterDays_pairwise qS qE)
      emptyWindow e (by rw [← hmax]; exact h)
    rcases hfirst with hf | ⟨hmem, helig, _, hall⟩
    · simp [emptyWindow] at hf
    · refine ⟨hmem, helig, hrel, ?_, hall⟩
      intro x hx hxelig
      have := scanDays_ge cum (quarterDays qS qE) emptyWindow x hx hxelig
      rw [← hmax, hrel] at this
      exact this

/-- Claim C6 witness: on `cumW` the window ends 50 and 51 tie at relative
gain 1/2 within quarter 50..52, and the scanner reports the earliest,
day 50. -/
theorem ross_first_max_wins_witness :
    (50 : ℤ) ∈ quarterDays 50 52 ∧ 1000 ≤ cumAt cumW (addDays 50 (-89)) ∧
      (maxRossWindowForQuarter cumW 50 52).rel_gain = relOf cumW 50 ∧
      relOf cumW 51 ≤ relOf cumW 50 := by
  have h := ross_first_max_wins cumW 50 52 50 (by rw [cumW_eval])
  exact ⟨h.1, h.2.1, h.2.2.1, h.2.2.2.1 51 (by decide) (by decide)⟩

/-! ### Ranker lemmas -/

lemma insertDesc_perm (r : RossRow) : ∀ l, (insertDesc r l).Perm (r :: l) := by
  intro l
  induction l with
  | nil => simp [insertDesc]
  | cons y ys ih =>
    by_cases hc : r.rel_gain_90d < y.rel_gain_90d
    · rw [show insertDesc r (y :: ys) = y :: insertDesc r ys by simp [insertDesc, hc]]
      exact (ih.cons y).trans (List.Perm.swap r y ys)
    · rw [show insertDesc r (y :: ys) = r :: y :: ys by simp [insertDesc, hc]]

lemma sortDesc_perm : ∀ l, (sortDesc l).Perm l := by
  intro l
  induction l with
  | nil => simp [sortDesc]
  | cons x xs ih =>
    exact (insertDesc_perm x (sortDesc xs)).trans (ih.cons x)

lemma mem_insertDesc {x r : RossRow} {l : List RossRow} :
    x ∈ insertDesc r l ↔ x = r ∨ x ∈ l := by
  rw [(insertDesc_perm r l).mem_iff, List.mem_cons]

lemma insertDesc_pairwise {r : RossRow} {l : List RossRow}
    (h : l.Pairwise (fun a b => b.rel_gain_90d ≤ a.rel_gain_90d)) :
    (insertDesc r l).Pairwise (fun a b => b.rel_gain_90d ≤ a.rel_gain_90d) := by
  induction l with
  | nil => simp [insertDesc]
  | cons y ys ih =>
    rcases List.pairwise_cons.mp h with ⟨hy, hys⟩
    by_cases hc : r.rel_gain_90d < y.rel_gain_90d
    · rw [show insertDesc r (y :: ys) = y :: insertDesc r ys by simp [insertDesc, hc]]
      rw [List.pairwise_cons]
      refine ⟨?_, ih hys⟩
      intro z hz
      rcases mem_insertDesc.mp hz with rfl | hz'
      · exact le_of_lt hc
      · exact hy z hz'
    · rw [show insertDesc r (y :: ys) = r :: y :: ys by simp [insertDesc, hc]]
      rw [List.pairwise_cons]
      refine ⟨?_, h⟩
      intro z hz
      rcases List.mem_cons.mp hz with rfl | hz'
      · exact not_lt.mp hc
      · exact le_trans (hy z hz') (not_lt.mp hc)

lemma sortDesc_pairwise :
    ∀ l, (sortDesc l).Pairwise (fun a b => b.rel_gain_90d ≤ a.rel_gain_90d) := by
  intro l
  induction l with
  | nil => simp [sortDesc]
  | cons x xs ih => exact insertDesc_pairwise ih

lemma addRanksFrom_length : ∀ (n : ℕ) (l : List RossRow), (addRanksFrom n l).length = l.length := by
  intro n l
  induction l generalizing n with
  | nil => rfl
  | cons x xs ih => simp [addRanksFrom, ih]

lemma addRanksFrom_map_rel : ∀ (n : ℕ) (l : List RossRow),
    (addRanksFrom n l).map RossRow.rel_gain_90d = l.map RossRow.rel_gain_90d := by
  intro n l
  induction l generalizing n with
  | nil => rfl
  | cons x xs ih => simp [addRanksFrom, ih]

lemma addRanksFrom_map_rank : ∀ (n : ℕ) (l : List RossRow),
    (addRanksFrom n l).map RossRow.rank = List.range' n l.length := by
  intro n l
  induction l generalizing n with
  | nil => rfl
  | cons x xs ih => simp [addRanksFrom, ih, List.range'_succ]

lemma addRanksFrom_rank_ge : ∀ (n : ℕ) (l : List RossRow) (row : RossRow),
    row ∈ addRanksFrom n l → n ≤ row.rank := by
  intro n l
  induction l generalizing n with
  | nil => intro row h; exact absurd h (List.not_mem_nil row)
  | cons x xs ih =>
    intro row h
    rcases List.mem_cons.mp h with rfl | h'
    · exact le_refl _
    · exact Nat.le_of_succ_le (ih (n + 1) row h')

lemma addRanksFrom_mem : ∀ (n : ℕ) (l : List RossRow) (row : RossRow),
    row ∈ addRanksFrom n l → ∃ x ∈ l, row = { x with rank := row.rank } := by
  intro n l
  induction l generalizing n with
  | nil => intro row h; exact absurd h (List.not_mem_nil row)
  | cons x xs ih =>
    intro row h
    rcases List.mem_cons.mp h with rfl | h'
    · exact ⟨x, List.mem_cons_self x xs, rfl⟩
    · obtain ⟨z, hz, hrow⟩ := ih (n + 1) row h'
      exact ⟨z, List.mem_cons_of_mem x hz, hrow⟩

lemma addRanksFrom_rank_start : ∀ (n : ℕ) (l : List RossRow) (row : RossRow),
    row ∈ addRanksFrom n l → row.rank = n →
      ∃ x, l.head? = some x ∧ row = { x with rank := n } := by
  intro n l
  induction l generalizing n with
  | nil => intro row h; exact absurd h (List.not_mem_nil row)
  | cons x xs _ =>
    intro row h hrank
    rcases List.mem_cons.mp h with rfl | h'
    · exact ⟨x, rfl, rfl⟩
    · have := addRanksFrom_rank_ge (n + 1) xs row h'
      omega

lemma head?_take_pos (l : List RossRow) (n : ℕ) (h : 0 < n) : (l.take n).head? = l.head? := by
  cases n with
  | zero => omega
  | succ m => cases l <;> simp

lemma sortDesc_head_max {l : List RossRow} {x : RossRow} (h : (sortDesc l).head? = some x) :
    ∀ y ∈ l, y.rel_gain_90d ≤ x.rel_gain_90d := by
  intro y hy
  have hy' : y ∈ sortDesc l := (sortDesc_perm l).mem_iff.mpr hy
  have hp := sortDesc_pairwise l
  cases hsd : sortDesc l with
  | nil => rw [hsd] at h; simp at h
  | cons a t =>
    rw [hsd] at h hy' hp
    simp only [List.head?_cons, Option.some.injEq] at h
    subst h
    rw [List.pairwise_cons] at hp
    rcases List.mem_cons.mp hy' with rfl | hy''
    · exact le_refl _
    · exact hp.1 y hy''

/-! ### Ranker claims -/

/-- Claim C3: the quarterly ranker sorts the retained rows descending by
`rel_gain_90d`, truncates to at most 100 rows (output length is
`min 100 N` over `N` retained rows, so 150 eligible repositories give
exactly 100 rows), assigns contiguous ranks `1..N` down the sorted order,
and the rank-1 row's relative gain is maximal among all retained rows. -/
theorem ross_ranker_sort_trunc_rank (label : String) (qS qE : ℤ) (repos : List RepoInput) :
    (rankRossQuarter label qS qE repos).length = min 100 (rossRows label qS qE repos).length ∧
    ((rankRossQuarter label qS qE repos).map RossRow.rel_gain_90d).Pairwise
      (fun a b => b ≤ a) ∧
    (rankRossQuarter label qS qE repos).map RossRow.rank =
      List.range' 1 (rankRossQuarter label qS qE repos).length ∧
    (∀ row ∈ rankRossQuarter label qS qE repos, row.rank = 1 →
      ∀ r ∈ rossRows label qS qE repos, r.rel_gain_90d ≤ row.rel_gain_90d) := by
  have hlen : (rankRossQuarter label qS qE repos).length =
      min 100 (rossRows label qS qE repos).length := by
    unfold rankRossQuarter
    rw [addRanksFrom_length, List.length_take, (sortDesc_perm _).length_eq]
  refine ⟨hlen, ?_, ?_, ?_⟩
  · unfold rankRossQuarter
    rw [addRanksFrom_map_rel]
    have hp' := (sortDesc_pairwise (rossRows label qS qE repos)).sublist
      (List.take_sublist 100 _)
    exact hp'.map _ (fun a b hab => hab)
  · unfold rankRossQuarter
    rw [addRanksFrom_map_rank, addRanksFrom_length]
  · intro row hrow hrank r hr
    unfold rankRossQuarter at hrow
    obtain ⟨x, hx, hrow_eq⟩ := addRanksFrom_rank_start 1 _ row hrow hrank
    have hhead : (sortDesc (rossRows label qS qE repos)).head? = some x := by
      rw [← head?_take_pos (sortDesc (rossRows label qS qE repos)) 100 (by norm_num)]
      exact hx
    have hmax := sortDesc_head_max hhead r hr
    rw [hrow_eq]
    exact hmax

/-- Claim C7: every row of the ranker's output comes from an input
repository whose scanner result passed the filter — its best window start
is non-null and its relative gain is positive.  A repository whose result
has `start = null` or `rel_gain ≤ 0` therefore never appears, whatever the
input order. -/
theorem ross_ranker_filter (label : String) (qS qE : ℤ) (repos : List RepoInput) :
    ∀ name ∈ (rankRossQuarter label qS qE repos).map RossRow.repo,
      ∃ r ∈ repos, name = r.repo ∧
        (maxRossWindowForQuarter r.cumulative qS qE).start ≠ none ∧
        0 < (maxRossWindowForQuarter r.cumulative qS qE).rel_gain := by
  intro name hname
  rw [List.mem_map] at hname
  obtain ⟨row, hrow, rfl⟩ := hname
  obtain ⟨x, hx, hrow_eq⟩ := addRanksFrom_mem 1 _ row hrow
  have hx' : x ∈ sortDesc (rossRows label qS qE repos) := List.take_subset _ _ hx
  have hx'' : x ∈ rossRows label qS qE repos := (sortDesc_perm _).mem_iff.mp hx'
  rw [rossRows, List.mem_filterMap] at hx''
  obtain ⟨r, hr, hro⟩ := hx''
  simp only [rowOf] at hro
  split_ifs at hro with hcond
  push_neg at hcond
  rw [Option.some_inj] at hro
  refine ⟨r, hr, ?_, hcond.1, hcond.2⟩
  rw [hrow_eq, ← hro]

/-! ### Concrete evaluations of the ranker -/

lemma jsToFixed6_half : jsToFixed6 (1/2) = 1/2 := by
  rw [jsToFixed6, jsRound]
  rw [show (1/2 : ℚ) * 1000000 + 1/2 = 1000001/2 by norm_num]
  rw [show ⌊(1000001/2 : ℚ)⌋ = 500000 by rw [Int.floor_eq_iff]; norm_num]
  norm_num

lemma jsToFixed6_one : jsToFixed6 1 = 1 := by
  rw [jsToFixed6, jsRound]
  rw [show (1 : ℚ) * 1000000 + 1/2 = 2000001/2 by norm_num]
  rw [show ⌊(2000001/2 : ℚ)⌋ = 1000000 by rw [Int.floor_eq_iff]; norm_num]
  norm_num

lemma cumW_eval50 : maxRossWindowForQuarter cumW 50 50 =
    { rel_gain := 1/2, abs_gain := 500, start := some (-39), end_ := some 50,
      start_val := 1000, end_val := 1500 } := by
  norm_num [maxRossWindowForQuarter, quarterDays, scanDays, emptyWindow, windowAt, relOf,
    cumW, cumAt, cumAtGo, addDays, List.range_succ]
  simp

lemma cumW2_eval50 : maxRossWindowForQuarter cumW2 50 50 =
    { rel_gain := 1, abs_gain := 1000, start := some (-39), end_ := some 50,
      start_val := 1000, end_val := 2000 } := by
  norm_num [maxRossWindowForQuarter, quarterDays, scanDays, emptyWindow, windowAt, relOf,
    cumW2, cumAt, cumAtGo, addDays, List.range_succ]
  simp

lemma rowOf_evalWa :
    rowOf "2025-Q1" 50 50 { repo := "a", cumulative := cumW, meta := none, ownerInfo := none } =
      some rowWa := by
  norm_num [rowOf, cumW_eval50, rowWa, jsToFixed6_half]
  exact fun h => Option.noConfusion h

lemma rowOf_evalWb :
    rowOf "2025-Q1" 50 50 { repo := "b", cumulative := cumW2, meta := none, ownerInfo := none } =
      some rowWb := by
  norm_num [rowOf, cumW2_eval50, rowWb, jsToFixed6_one]
  exact fun h => Option.noConfusion h

lemma rossRows_evalW : rossRows "2025-Q1" 50 50 reposW = [rowWa, rowWb] := by
  simp [rossRows, reposW, List.filterMap_cons, rowOf_evalWa, rowOf_evalWb]

lemma sortDesc_evalW : sortDesc [rowWa, rowWb] = [rowWb, rowWa] := by
  norm_num [sortDesc, insertDesc, rowWa, rowWb]

lemma rank_evalW : rankRossQuarter "2025-Q1" 50 50 reposW =
    [{ rowWb with rank := 1 }, { rowWa with rank := 2 }] := by
  unfold rankRossQuarter
  rw [rossRows_evalW, sortDesc_evalW]
  rfl

/-- Claim C3 witness: two eligible repositories with distinct gains;
the output is fully ranked and the retained row of "a" scores no more than
the rank-1 row. -/
theorem ross_ranker_sort_trunc_rank_witness :
    (rankRossQuarter "2025-Q1" 50 50 reposW).length =
      min 100 (rossRows "2025-Q1" 50 50 reposW).length ∧
    ((rankRossQuarter "2025-Q1" 50 50 reposW).map RossRow.rel_gain_90d).Pairwise
      (fun a b => b ≤ a) ∧
    (rankRossQuarter "2025-Q1" 50 50 reposW).map RossRow.rank =
      List.range' 1 (rankRossQuarter "2025-Q1" 50 50 reposW).length ∧
    rowWa.rel_gain_90d ≤ ({ rowWb with rank := 1 } : RossRow).rel_gain_90d := by
  have h := ross_ranker_sort_trunc_rank "2025-Q1" 50 50 reposW
  refine ⟨h.1, h.2.1, h.2.2.1, ?_⟩
  refine h.2.2.2 { rowWb with rank := 1 } ?_ rfl rowWa ?_
  · rw [rank_evalW]
    exact List.mem_cons_self _ _
  · rw [rossRows_evalW]
    exact List.mem_cons_self _ _

/-- Claim C7 witness: repository "b" appears in the output, and indeed its
scanner result passed the filter. -/
theorem ross_ranker_filter_witness :
    ∃ r ∈ reposW, "b" = r.repo ∧
      (maxRossWindowForQuarter r.cumulative 50 50).start ≠ none ∧
      0 < (maxRossWindowForQuarter r.cumulative 50 50).rel_gain := by
  refine ross_ranker_filter "2025-Q1" 50 50 reposW "b" ?_
  rw [rank_evalW]
  simp [rowWa, rowWb]

/-! ### Time-utility claims -/

lemma jsRound_div_seven (n : ℤ) : jsRound ((n : ℚ) / 7) = (2 * n + 7) / 14 := by
  rw [jsRound]
  rw [show (n : ℚ) / 7 + 1/2 = ((2 * n + 7 : ℤ) : ℚ) / ((14 : ℕ) : ℚ) by push_cast; ring]
  rw [Rat.floor_intCast_div_natCast]
  norm_num

lemma jan4_eq (y : ℤ) : civilToDay y 1 4 = civilToDay y 1 1 + 3 := by
  simp only [civilToDay]
  norm_num
  omega

/-- Claim C5, amended: `weeksToBounds (isoWeekKey D)` always yields a
window of exactly 7 consecutive days beginning on a Monday.  The Monday of
`D`'s true ISO week is `D - dowMonday D` (it is a Monday, and `D` lies in
the 7 days starting there).  The returned window contains `D` exactly when
January 1 of the key's year falls on Monday through Thursday; when that
January 1 falls on Friday, Saturday or Sunday, the returned window starts
exactly 7 days before the Monday of `D`'s true ISO week — one week early —
and does not contain `D`, because `weeksToBounds` offsets from January 1
instead of the ISO anchor January 4. -/
theorem iso_week_roundtrip_amended (D : ℤ) :
    (weeksToBounds (isoWeekKey D).1 (isoWeekKey D).2).2 =
      (weeksToBounds (isoWeekKey D).1 (isoWeekKey D).2).1 + 6 ∧
    dowMonday (weeksToBounds (isoWeekKey D).1 (isoWeekKey D).2).1 = 0 ∧
    dowMonday (D - dowMonday D) = 0 ∧
    D - dowMonday D ≤ D ∧ D ≤ D - dowMonday D + 6 ∧
    (dowMonday (civilToDay (isoWeekKey D).1 1 1) ≤ 3 →
      (weeksToBounds (isoWeekKey D).1 (isoWeekKey D).2).1 ≤ D ∧
        D ≤ (weeksToBounds (isoWeekKey D).1 (isoWeekKey D).2).2) ∧
    (3 < dowMonday (civilToDay (isoWeekKey D).1 1 1) →
      (weeksToBounds (isoWeekKey D).1 (isoWeekKey D).2).1 = D - dowMonday D - 7 ∧
        ¬((weeksToBounds (isoWeekKey D).1 (isoWeekKey D).2).1 ≤ D ∧
            D ≤ (weeksToBounds (isoWeekKey D).1 (isoWeekKey D).2).2)) := by
  simp only [isoWeekKey, weeksToBounds, dowMonday]
  rw [jan4_eq]
  rw [jsRound_div_seven]
  refine ⟨trivial, by omega, by omega, by omega, by omega, fun hj => by omega,
    fun hj => by omega⟩

/-- Claim C5 is false as stated: for 2021-01-04 (a Monday, ISO week
2021-W01, day number 18631), `weeksToBounds (isoWeekKey D)` returns the
window 2020-12-28..2021-01-03, which does not contain the date — January 1
of 2021 is a Friday, so the simple week-offset anchor lands one week
early. -/
theorem iso_week_roundtrip_cex :
    ¬ ((weeksToBounds (isoWeekKey (civilToDay 2021 1 4)).1
          (isoWeekKey (civilToDay 2021 1 4)).2).1 ≤ civilToDay 2021 1 4 ∧
        civilToDay 2021 1 4 ≤
          (weeksToBounds (isoWeekKey (civilToDay 2021 1 4)).1
            (isoWeekKey (civilToDay 2021 1 4)).2).2) := by
  have hkey : isoWeekKey (civilToDay 2021 1 4) = (2021, 1) := by
    simp only [isoWeekKey, dowMonday]
    rw [jsRound_div_seven]
    decide
  rw [hkey]
  decide

/-- Claim C5 (amended) witness, both branches: 1970-01-01 (day 0) has a
Thursday January 1, so the returned window contains the date; 2021-01-04
has a Friday January 1, so the returned window starts 7 days before the
Monday of its true ISO week and misses the date. -/
theorem iso_week_roundtrip_amended_witness :
    ((weeksToBounds (isoWeekKey 0).1 (isoWeekKey 0).2).1 ≤ 0 ∧
      (0 : ℤ) ≤ (weeksToBounds (isoWeekKey 0).1 (isoWeekKey 0).2).2) ∧
    ((weeksToBounds (isoWeekKey (civilToDay 2021 1 4)).1
        (isoWeekKey (civilToDay 2021 1 4)).2).1 =
      civilToDay 2021 1 4 - dowMonday (civilToDay 2021 1 4) - 7 ∧
    ¬((weeksToBounds (isoWeekKey (civilToDay 2021 1 4)).1
          (isoWeekKey (civilToDay 2021 1 4)).2).1 ≤ civilToDay 2021 1 4 ∧
        civilToDay 2021 1 4 ≤
          (weeksToBounds (isoWeekKey (civilToDay 2021 1 4)).1
            (isoWeekKey (civilToDay 2021 1 4)).2).2)) := by
  constructor
  · have hkey : isoWeekKey 0 = (1970, 1) := by
      simp only [isoWeekKey, dowMonday]
      rw [jsRound_div_seven]
      decide
    refine (iso_week_roundtrip_amended 0).2.2.2.2.2.1 ?_
    rw [hkey]
    decide
  · have hkey : isoWeekKey (civilToDay 2021 1 4) = (2021, 1) := by
      simp only [isoWeekKey, dowMonday]
      rw [jsRound_div_seven]
      decide
    refine (iso_week_roundtrip_amended (civilToDay 2021 1 4)).2.2.2.2.2.2 ?_
    rw [hkey]
    decide
